import Mathlib

/-!
Verification of the BFV homomorphic-encryption engine
(`complete_fhe_package`): a shallow embedding of the ring layer
(`custom_fhe/polynomial.py`), the scheme layer (`custom_fhe/bfv_scheme.py`),
the accelerated parameter selector (`bfv_accelerated.py`) and the
`FastFHE_Custom` helper (`example_accelerated.py`), together with proofs
and refutations of the specification's claims about them.

Polynomials are numpy arrays of (arbitrary-precision) integers in the
source; they are embedded as `List ℤ`.  Python's `%` on a positive modulus
agrees with `Int.emod` (`%` on `ℤ`), and Python's floor division `//`
agrees with `Int.fdiv`; both facts are used silently in the embedding.
-/

/-- Parameters dictionary attached to ciphertexts by the source
(`params={'N': self.N, 't': self.t, 'q': self.q}`). -/
structure CtParams where
  N : ℕ
  t : ℤ
  q : ℤ
deriving DecidableEq, Repr

/-- Modelled from the spec: the `Ciphertext` container class
(`custom_fhe/ciphertext.py` is not under `src/`); per the spec a ciphertext
is an ordered tuple of 2 or 3 polynomials plus a reference to Parameters,
and `size` is the number of components. -/
structure Ciphertext where
  components : List (List ℤ)
  params : CtParams
deriving DecidableEq, Repr

/-- Modelled from the spec: `Ciphertext.size` ∈ {2,3} is the number of
polynomial components. -/
def Ciphertext.size (ct : Ciphertext) : ℕ := ct.components.length

/-- Python exception kinds raised (or, per the spec, expected to be raised)
by the engine.  The source raises `ValueError`; the spec's error taxonomy
names a `KeyError` kind and a `ParameterMismatch` kind, included here so
the spec's claims about error kinds can be stated. -/
inductive PyErr where
  | valueError (msg : String)
  | keyError (msg : String)
  | parameterMismatch (msg : String)
  | attributeError (msg : String)
deriving DecidableEq, Repr

/-- Relinearization key: two pairs `(k0_b, k0_a)` and `(k1_b, k1_a)`
as produced by `generate_relin_key` and consumed by `relinearize`. -/
abbrev RelinKey := (List ℤ × List ℤ) × (List ℤ × List ℤ)

namespace PolynomialRing

/-- Addition of coefficient lists with zero padding (used to express
`np.convolve` recursively; both convolution operands in the source are
full-length arrays, and `lAdd` agrees with `+` on equal lengths). -/
def lAdd : List ℤ → List ℤ → List ℤ
  | [], ys => ys
  | xs, [] => xs
  | x :: xs, y :: ys => (x + y) :: lAdd xs ys

/-- Integer coefficient convolution, `np.convolve(a, b)`:
`conv(a,b)[k] = Σ_{i+j=k} a[i]·b[j]` with no modular reduction. -/
def conv : List ℤ → List ℤ → List ℤ
  | [], _ => []
  | x :: xs, ys => lAdd (ys.map (fun y => x * y)) (0 :: conv xs ys)

/-- Negacyclic reduction of a convolution of length at most `2N`
(in the source: `res[i] += conv[i]` for `i < N`, `res[i-N] -= conv[i]`
for `i ≥ N`; a length-`2N-1` convolution wraps at most once, giving
`res[i] = conv[i] - conv[i+N]`). -/
def negFold (N : ℕ) (c : List ℤ) : List ℤ :=
  (List.range N).map (fun i => c.getD i 0 - c.getD (i + N) 0)

/-- Negacyclic product over the integers (no reduction mod q):
the convolution followed by the `X^N = -1` fold. -/
def nmul (N : ℕ) (a b : List ℤ) : List ℤ :=
  negFold N (conv a b)

/-- PolynomialRing.add: `(a + b) % q` componentwise. -/
def add (q : ℤ) (a b : List ℤ) : List ℤ :=
  (List.zipWith (fun x y => x + y) a b).map (fun v => v % q)

/-- PolynomialRing.sub: `(a - b) % q` componentwise. -/
def sub (q : ℤ) (a b : List ℤ) : List ℤ :=
  (List.zipWith (fun x y => x - y) a b).map (fun v => v % q)

/-- PolynomialRing.neg: `(-a) % q` componentwise. -/
def neg (q : ℤ) (a : List ℤ) : List ℤ :=
  a.map (fun v => (-v) % q)

/-- PolynomialRing.mul_scalar: `(a * scalar) % q` componentwise
(the source promotes to object dtype, i.e. exact integers). -/
def mul_scalar (q : ℤ) (a : List ℤ) (c : ℤ) : List ℤ :=
  a.map (fun v => (v * c) % q)

/-- PolynomialRing.mul: exact convolution, negacyclic fold, then `% q`. -/
def mul (N : ℕ) (q : ℤ) (a b : List ℤ) : List ℤ :=
  (nmul N a b).map (fun v => v % q)

/-- PolynomialRing.mod_center: subtract `q` from every entry strictly
greater than `q // 2`. -/
def mod_center (q : ℤ) (a : List ℤ) : List ℤ :=
  a.map (fun v => if q / 2 < v then v - q else v)

end PolynomialRing

namespace BFVScheme

open PolynomialRing

/-- Ciphertext modulus chosen by `BFVScheme.__init__`: `q = (1 << q_bits) - 1`. -/
def qOf (q_bits : ℕ) : ℤ := 2 ^ q_bits - 1

/-- Plaintext scale `delta = q // t`. -/
def deltaOf (q t : ℤ) : ℤ := q / t

/-- Decomposition base `T = 1 << (q_bits // 2)`. -/
def TOf (q_bits : ℕ) : ℤ := 2 ^ (q_bits / 2)

/-- Public-key construction from `key_generation`, with the sampler outputs
`s` (ternary secret), `a` (uniform) and `e` (bounded Gaussian) passed in
explicitly: `b = -(a*s + e)`, key is `(b, a)`. -/
def key_generation (N : ℕ) (q : ℤ) (s a e : List ℤ) : List ℤ × List ℤ :=
  (neg q (add q (mul N q a s) e), a)

/-- Ciphertext components produced by `encrypt` from plaintext `m` and
sampler outputs `u` (ternary), `e1`, `e2` (bounded Gaussian):
`c0 = pk0*u + e1 + delta*m`, `c1 = pk1*u + e2`. -/
def encryptComponents (N : ℕ) (q delta : ℤ) (pk : List ℤ × List ℤ)
    (m u e1 e2 : List ℤ) : List (List ℤ) :=
  [add q (add q (mul N q pk.1 u) e1) (mul_scalar q m delta),
   add q (mul N q pk.2 u) e2]

/-- BFVScheme.encrypt: fails when no public key is installed
(`raise ValueError("No Public Key")`), otherwise returns the size-2
ciphertext built by `encryptComponents`. -/
def encrypt (N : ℕ) (q t delta : ℤ) (pk : Option (List ℤ × List ℤ))
    (m u e1 e2 : List ℤ) : Except PyErr Ciphertext :=
  match pk with
  | none => .error (.valueError "No Public Key")
  | some pk => .ok ⟨encryptComponents N q delta pk m u e1 e2, ⟨N, t, q⟩⟩

/-- BFVScheme.decrypt on the component list: takes only `components[:2]`,
computes `noisy = c0 + c1*s`, then per coefficient
`((v*t + q//2) // q) % t`. -/
def decryptComponents (N : ℕ) (q t : ℤ) (s : List ℤ)
    (cs : List (List ℤ)) : List ℤ :=
  let c0 := cs.getD 0 []
  let c1 := cs.getD 1 []
  let noisy := add q c0 (mul N q c1 s)
  noisy.map (fun v => ((v * t + q / 2).fdiv q) % t)

/-- BFVScheme.decrypt on a ciphertext. -/
def decrypt (N : ℕ) (q t : ℤ) (s : List ℤ) (ct : Ciphertext) : List ℤ :=
  decryptComponents N q t s ct.components

/-- The `mul_scale` helper inside `multiply`: exact convolution and
negacyclic fold (no mod q), then per coefficient
`((v*t + q//2) // q) % q`. -/
def mul_scale (N : ℕ) (t q : ℤ) (p1 p2 : List ℤ) : List ℤ :=
  (nmul N p1 p2).map (fun v => ((v * t + q / 2).fdiv q) % q)

/-- BFVScheme.multiply: `d0 = mul_scale(c10,c20)`,
`d1 = add(mul_scale(c10,c21), mul_scale(c11,c20))`,
`d2 = mul_scale(c11,c21)`. -/
def multiply (N : ℕ) (t q : ℤ) (ct1 ct2 : Ciphertext) : Ciphertext :=
  let c10 := ct1.components.getD 0 []
  let c11 := ct1.components.getD 1 []
  let c20 := ct2.components.getD 0 []
  let c21 := ct2.components.getD 1 []
  ⟨[mul_scale N t q c10 c20,
    add q (mul_scale N t q c10 c21) (mul_scale N t q c11 c20),
    mul_scale N t q c11 c21],
   ct1.params⟩

/-- BFVScheme.relinearize: size ≠ 3 ciphertexts are returned unchanged
before the key is ever touched; for size 3 the stored representatives of
`d2` are decomposed as `d2 % T` and `d2 // T` and recombined with the two
key pairs.  Accessing a missing key (`self.relin_key = None`) would raise
`AttributeError` in the source. -/
def relinearize (N : ℕ) (q T : ℤ) (rk : Option RelinKey) (ct : Ciphertext) :
    Except PyErr Ciphertext :=
  if ct.size ≠ 3 then .ok ct
  else
    match rk with
    | none => .error (.attributeError "NoneType object has no attribute")
    | some rk =>
      let d0 := ct.components.getD 0 []
      let d1 := ct.components.getD 1 []
      let d2 := ct.components.getD 2 []
      let d2_0 := d2.map (fun v => v % T)
      let d2_1 := d2.map (fun v => v.fdiv T)
      let c0 := add q d0 (add q (mul N q d2_0 rk.1.1) (mul N q d2_1 rk.2.1))
      let c1 := add q d1 (add q (mul N q d2_0 rk.1.2) (mul N q d2_1 rk.2.2))
      .ok ⟨[c0, c1], ct.params⟩

/-- BFVScheme.decode: `mod_center` (with ring modulus `q`) applied to the
plaintext polynomial, coefficient 0, then `% t`. -/
def decode (q t : ℤ) (pt : List ℤ) : ℤ :=
  (mod_center q pt).getD 0 0 % t

/-- BFVScheme.encode: write `values[i] % t` into the first coefficients of
a length-`N` zero polynomial, truncating beyond `N`. -/
def encode (N : ℕ) (t : ℤ) (values : List ℤ) : List ℤ :=
  ((values.take N).map (fun v => v % t)) ++
    List.replicate (N - values.length) 0

end BFVScheme

namespace BFVSchemeAccelerated

/-- Fuel-based integer square root used to model Python's `int(n**0.5)`
in `_find_ntt_prime.is_prime` (exact integer square root; the fuel `n`
always suffices). -/
def isqrtGo (n : ℕ) : ℕ → ℕ → ℕ
  | 0, acc => acc
  | fuel + 1, acc => if (acc + 1) * (acc + 1) ≤ n then isqrtGo n fuel (acc + 1) else acc

/-- Integer square root: the largest `r` with `r*r ≤ n`. -/
def isqrt (n : ℕ) : ℕ := isqrtGo n n 0

/-- The nested `is_prime` of `_find_ntt_prime`: reject even `n`, then trial
division by every odd `i` in `range(3, isqrt(n)+1, 2)`.  Python's
`range(3, k+1, 2)` has `(k-1)/2` elements (natural division). -/
def is_prime (n : ℕ) : Bool :=
  if n % 2 == 0 then false
  else (List.range' 3 ((isqrt n - 1) / 2) 2).all (fun i => n % i != 0)

/-- The candidate-advancing loop of `_find_ntt_prime`
(`while not is_prime(q): q += m`), with explicit fuel standing for the
unbounded `while`. -/
def findLoop : ℕ → ℕ → ℕ → Option ℕ
  | 0, _, _ => none
  | fuel + 1, q, m => if is_prime q then some q else findLoop fuel (q + m) m

/-- BFVSchemeAccelerated._find_ntt_prime: `m = 2N`,
start at `(start_q // m) * m + 1`, advance by `m` until `is_prime`. -/
def find_ntt_prime (fuel start_q N : ℕ) : Option ℕ :=
  findLoop fuel ((start_q / (2 * N)) * (2 * N) + 1) (2 * N)

end BFVSchemeAccelerated

namespace FastFHE

open PolynomialRing

/-- FastFHE_Custom.homomorphic_sub (`example_accelerated.py`): componentwise
`poly_ring.sub` of the first two components, result carries `ct1.params`;
there is no parameter or fingerprint check of any kind in the source, and
no code path raises, so the result is always `.ok`. -/
def homomorphic_sub (q : ℤ) (ct1 ct2 : Ciphertext) : Except PyErr Ciphertext :=
  .ok ⟨[sub q (ct1.components.getD 0 []) (ct2.components.getD 0 []),
        sub q (ct1.components.getD 1 []) (ct2.components.getD 1 [])],
       ct1.params⟩

end FastFHE

namespace SpecModel

open PolynomialRing

/-- Stated from the spec for comparison with the source (refinement):
size-3 decryption via `ν = c0 + c1·s + c2·s² (mod q)` followed by the same
rounded scaling as `decrypt`. -/
def decryptSize3 (N : ℕ) (q t : ℤ) (s : List ℤ) (cs : List (List ℤ)) : List ℤ :=
  let c0 := cs.getD 0 []
  let c1 := cs.getD 1 []
  let c2 := cs.getD 2 []
  let nu := add q (add q c0 (mul N q c1 s)) (mul N q c2 (mul N q s s))
  nu.map (fun v => ((v * t + q / 2).fdiv q) % t)

/-- Stated from the spec for comparison with the source (refinement): the
middle tensor component with the rescaling formula applied once to each
coefficient of the completed sum `c10·c21 + c11·c20`. -/
def multiplyMiddle (N : ℕ) (t q : ℤ) (c10 c11 c20 c21 : List ℤ) : List ℤ :=
  (List.zipWith (fun x y => x + y) (nmul N c10 c21) (nmul N c11 c20)).map
    (fun v => ((v * t + q / 2).fdiv q) % q)

/-- Stated from the spec for comparison with the source (refinement):
relinearization decomposing `d2` per coefficient on centered
representatives. -/
def relinearizeCentered (N : ℕ) (q T : ℤ) (rk : RelinKey) (ct : Ciphertext) :
    Ciphertext :=
  let d0 := ct.components.getD 0 []
  let d1 := ct.components.getD 1 []
  let d2 := (ct.components.getD 2 []).map (fun v => if q / 2 < v then v - q else v)
  let d2_0 := d2.map (fun v => v % T)
  let d2_1 := d2.map (fun v => v.fdiv T)
  let c0 := add q d0 (add q (mul N q d2_0 rk.1.1) (mul N q d2_1 rk.2.1))
  let c1 := add q d1 (add q (mul N q d2_0 rk.1.2) (mul N q d2_1 rk.2.2))
  ⟨[c0, c1], ct.params⟩

/-- Stated from the spec for comparison with the source (refinement):
decode as the centered representative of coefficient 0 reduced mod `t`
into the window `[-⌊t/2⌋, ⌈t/2⌉)`. -/
def decodeCentered (t : ℤ) (pt : List ℤ) : ℤ :=
  let r := pt.getD 0 0 % t
  if (t + 1) / 2 ≤ r then r - t else r

end SpecModel

/-! ## Polynomial semantics of the negacyclic ring

The coefficient lists are related to `Polynomial ℤ` (and, after reduction
mod q, to `Polynomial (ZMod q)`), where the negacyclic product is division
with remainder by the monic polynomial `X^N + 1`.  This gives the ring
identities (associativity and commutativity of the negacyclic product)
needed for the decryption-correctness claim. -/

namespace NegacyclicSemantics

open Polynomial PolynomialRing

/-- Semantic polynomial of an ascending coefficient list. -/
noncomputable def toPoly : List ℤ → Polynomial ℤ
  | [] => 0
  | x :: xs => C x + X * toPoly xs

theorem toPoly_coeff (l : List ℤ) (k : ℕ) : (toPoly l).coeff k = l.getD k 0 := by
  induction l generalizing k with
  | nil => simp [toPoly]
  | cons x xs ih =>
    cases k with
    | zero => simp [toPoly]
    | succ j =>
      simp only [toPoly, Polynomial.coeff_add, Polynomial.coeff_X_mul, ih,
        List.getD_cons_succ, Polynomial.coeff_C]
      simp

theorem toPoly_lAdd (a b : List ℤ) : toPoly (lAdd a b) = toPoly a + toPoly b := by
  induction a generalizing b with
  | nil => simp [lAdd, toPoly]
  | cons x xs ih =>
    cases b with
    | nil => simp [lAdd, toPoly]
    | cons y ys =>
      simp only [lAdd, toPoly, ih, C_add]
      ring

theorem toPoly_map_mul (x : ℤ) (l : List ℤ) :
    toPoly (l.map (fun y => x * y)) = C x * toPoly l := by
  induction l with
  | nil => simp [toPoly]
  | cons y ys ih =>
    simp only [List.map_cons, toPoly, ih, C_mul]
    ring

theorem toPoly_conv (a b : List ℤ) : toPoly (conv a b) = toPoly a * toPoly b := by
  induction a with
  | nil => simp [conv, toPoly]
  | cons x xs ih =>
    simp only [conv, toPoly_lAdd, toPoly_map_mul, toPoly, ih, Polynomial.C_0]
    ring

theorem lAdd_length (a b : List ℤ) : (lAdd a b).length = max a.length b.length := by
  induction a generalizing b with
  | nil => simp [lAdd]
  | cons x xs ih =>
    cases b with
    | nil => simp [lAdd]
    | cons y ys => simp [lAdd, ih, Nat.succ_max_succ]

theorem conv_length (a b : List ℤ) : (conv a b).length ≤ a.length + b.length := by
  induction a with
  | nil => simp [conv]
  | cons x xs ih =>
    simp only [conv, lAdd_length, List.length_map, List.length_cons]
    omega

theorem getD_range_map (n : ℕ) (g : ℕ → ℤ) (i : ℕ) :
    ((List.range n).map g).getD i 0 = if i < n then g i else 0 := by
  rw [List.getD_eq_getElem?_getD, List.getElem?_map]
  by_cases h : i < n
  · rw [List.getElem?_range h]
    simp [h]
  · rw [List.getElem?_eq_none (by simpa using Nat.le_of_not_lt h)]
    simp [h]

theorem negFold_length (N : ℕ) (c : List ℤ) : (negFold N c).length = N := by
  simp [negFold]

theorem negFold_getD (N : ℕ) (c : List ℤ) (i : ℕ) :
    (negFold N c).getD i 0 = if i < N then c.getD i 0 - c.getD (i + N) 0 else 0 :=
  getD_range_map N _ i

theorem toPoly_degree_lt (l : List ℤ) (n : ℕ) (h : l.length ≤ n) :
    (toPoly l).degree < n := by
  rw [degree_lt_iff_coeff_zero]
  intro m hm
  rw [toPoly_coeff]
  exact List.getD_eq_default _ _ (le_trans h hm)

/-- The modulus polynomial `X^N + 1`. -/
noncomputable def fN (N : ℕ) : Polynomial ℤ := X ^ N + C 1

theorem fN_monic {N : ℕ} (hN : 0 < N) : (fN N).Monic := by
  simpa [fN] using Polynomial.monic_X_pow_add_C (1 : ℤ) (by omega : N ≠ 0)

theorem fN_degree {N : ℕ} (hN : 0 < N) : (fN N).degree = (N : WithBot ℕ) :=
  Polynomial.degree_X_pow_add_C hN 1

end NegacyclicSemantics

namespace NegacyclicSemantics

open Polynomial PolynomialRing

theorem modByMonic_unique {R : Type} [CommRing R] [Nontrivial R]
    {f p r : Polynomial R} (hf : f.Monic) (hdvd : f ∣ p - r)
    (hdeg : r.degree < f.degree) : p %ₘ f = r := by
  have h0 : p %ₘ f = p - f * (p /ₘ f) := eq_sub_of_add_eq (modByMonic_add_div p hf)
  have hdvd2 : f ∣ p %ₘ f - r := by
    have : p %ₘ f - r = (p - r) - f * (p /ₘ f) := by rw [h0]; ring
    rw [this]
    exact dvd_sub hdvd (Dvd.intro _ rfl)
  rcases hdvd2 with ⟨c, hc⟩
  by_cases hc0 : c = 0
  · rw [hc0, mul_zero, sub_eq_zero] at hc
    exact hc
  · exfalso
    have hlt : (p %ₘ f - r).degree < f.degree :=
      lt_of_le_of_lt (degree_sub_le _ _)
        (max_lt (degree_modByMonic_lt p hf) hdeg)
    have hge : f.degree ≤ (p %ₘ f - r).degree := by
      rw [hc, mul_comm, hf.degree_mul]
      exact le_add_of_nonneg_left (zero_le_degree_iff.mpr hc0)
    exact absurd hlt (not_lt.mpr hge)

theorem dvd_sub_modByMonic {R : Type} [CommRing R] {f p : Polynomial R}
    (hf : f.Monic) : f ∣ p - p %ₘ f := by
  have h0 : p %ₘ f = p - f * (p /ₘ f) := eq_sub_of_add_eq (modByMonic_add_div p hf)
  exact ⟨p /ₘ f, by rw [h0]; ring⟩

theorem modByMonic_congr {R : Type} [CommRing R] [Nontrivial R]
    {f p p' : Polynomial R} (hf : f.Monic) (h : f ∣ p - p') :
    p %ₘ f = p' %ₘ f := by
  refine modByMonic_unique hf ?_ (degree_modByMonic_lt p' hf)
  have : p - p' %ₘ f = (p - p') + (p' - p' %ₘ f) := by ring
  rw [this]
  exact dvd_add h (dvd_sub_modByMonic hf)

theorem modByMonic_mul_left {R : Type} [CommRing R] [Nontrivial R]
    {f : Polynomial R} (hf : f.Monic) (p r : Polynomial R) :
    (p %ₘ f * r) %ₘ f = (p * r) %ₘ f := by
  refine modByMonic_congr hf ?_
  have : p %ₘ f * r - p * r = -((p - p %ₘ f) * r) := by ring
  rw [this]
  exact dvd_neg.mpr (Dvd.dvd.mul_right (dvd_sub_modByMonic hf) r)

theorem modByMonic_mul_right {R : Type} [CommRing R] [Nontrivial R]
    {f : Polynomial R} (hf : f.Monic) (p r : Polynomial R) :
    (r * (p %ₘ f)) %ₘ f = (r * p) %ₘ f := by
  rw [mul_comm r (p %ₘ f), mul_comm r p]
  exact modByMonic_mul_left hf p r

theorem modByMonic_self_of_degree_lt {R : Type} [CommRing R] [Nontrivial R]
    {f p : Polynomial R} (hf : f.Monic) (hdeg : p.degree < f.degree) :
    p %ₘ f = p :=
  modByMonic_unique hf (by simp) hdeg

theorem toPoly_nmul {N : ℕ} (hN : 0 < N) (a b : List ℤ)
    (ha : a.length ≤ N) (hb : b.length ≤ N) :
    toPoly (nmul N a b) = (toPoly a * toPoly b) %ₘ fN N := by
  symm
  have hconvlen : (conv a b).length ≤ 2 * N := by
    have := conv_length a b
    omega
  refine modByMonic_unique (fN_monic hN) ?_ ?_
  · refine ⟨toPoly ((List.range N).map (fun j => (conv a b).getD (j + N) 0)), ?_⟩
    apply Polynomial.ext
    intro k
    have hfN : fN N = X ^ N + 1 := by
      simp [fN]
    rw [Polynomial.coeff_sub, ← toPoly_conv, hfN, add_mul, one_mul,
      Polynomial.coeff_add, mul_comm (X ^ N), Polynomial.coeff_mul_X_pow']
    simp only [toPoly_coeff, nmul, negFold_getD, getD_range_map]
    by_cases h1 : k < N
    · simp only [if_pos h1, if_neg (show ¬ N ≤ k by omega)]
      ring
    · simp only [if_neg h1, if_pos (show N ≤ k by omega), sub_zero, add_zero]
      by_cases h3 : k - N < N
      · rw [if_pos h3, show k - N + N = k by omega]
      · rw [if_neg h3, List.getD_eq_default _ _ (show (conv a b).length ≤ k by omega)]
  · rw [fN_degree hN]
    refine toPoly_degree_lt _ N (le_of_eq ?_)
    simp [nmul, negFold_length]

end NegacyclicSemantics

namespace NegacyclicSemantics

open Polynomial PolynomialRing

theorem getD_map_zero (f : ℤ → ℤ) (hf : f 0 = 0) (l : List ℤ) (n : ℕ) :
    (l.map f).getD n 0 = f (l.getD n 0) := by
  calc (l.map f).getD n 0 = (l.map f).getD n (f 0) := by rw [hf]
    _ = f (l.getD n 0) := List.getD_map l 0 f

theorem getD_zipWith (f : ℤ → ℤ → ℤ) (hf : f 0 0 = 0) (a b : List ℤ)
    (h : a.length = b.length) (n : ℕ) :
    (List.zipWith f a b).getD n 0 = f (a.getD n 0) (b.getD n 0) := by
  induction a generalizing b n with
  | nil =>
    cases b with
    | nil => simpa using hf.symm
    | cons y ys => simp at h
  | cons x xs ih =>
    cases b with
    | nil => simp at h
    | cons y ys =>
      cases n with
      | zero => simp
      | succ j =>
        simp only [List.zipWith_cons_cons, List.getD_cons_succ]
        exact ih ys (by simpa using h) j

/-- Semantic polynomial over `ZMod q` of a coefficient list. -/
noncomputable def toPolyZ (q : ℕ) (l : List ℤ) : Polynomial (ZMod q) :=
  (toPoly l).map (Int.castRingHom (ZMod q))

/-- The modulus polynomial over `ZMod q`. -/
noncomputable def fNZ (q N : ℕ) : Polynomial (ZMod q) := X ^ N + C 1

theorem toPolyZ_coeff (q : ℕ) (l : List ℤ) (k : ℕ) :
    (toPolyZ q l).coeff k = ((l.getD k 0 : ℤ) : ZMod q) := by
  simp [toPolyZ, Polynomial.coeff_map, toPoly_coeff]

theorem intCast_emod (q : ℕ) (x : ℤ) : ((x % (q : ℤ) : ℤ) : ZMod q) = (x : ZMod q) := by
  rw [Int.emod_def]
  push_cast
  rw [ZMod.natCast_self]
  ring

theorem toPolyZ_map_emod (q : ℕ) (l : List ℤ) :
    toPolyZ q (l.map (fun v => v % (q : ℤ))) = toPolyZ q l := by
  apply Polynomial.ext
  intro k
  rw [toPolyZ_coeff, toPolyZ_coeff, getD_map_zero _ (by simp) l k, intCast_emod]

theorem toPoly_zipWith_add (a b : List ℤ) (h : a.length = b.length) :
    toPoly (List.zipWith (fun x y => x + y) a b) = toPoly a + toPoly b := by
  induction a generalizing b with
  | nil =>
    cases b with
    | nil => simp [toPoly]
    | cons y ys => simp at h
  | cons x xs ih =>
    cases b with
    | nil => simp at h
    | cons y ys =>
      simp only [List.zipWith_cons_cons, toPoly, ih ys (by simpa using h), C_add]
      ring

theorem toPoly_zipWith_sub (a b : List ℤ) (h : a.length = b.length) :
    toPoly (List.zipWith (fun x y => x - y) a b) = toPoly a - toPoly b := by
  induction a generalizing b with
  | nil =>
    cases b with
    | nil => simp [toPoly]
    | cons y ys => simp at h
  | cons x xs ih =>
    cases b with
    | nil => simp at h
    | cons y ys =>
      simp only [List.zipWith_cons_cons, toPoly, ih ys (by simpa using h), C_sub]
      ring

theorem toPoly_map_neg (l : List ℤ) : toPoly (l.map (fun v => -v)) = -toPoly l := by
  induction l with
  | nil => simp [toPoly]
  | cons x xs ih =>
    simp only [List.map_cons, toPoly, ih, C_neg]
    ring

theorem toPoly_map_mul_right (l : List ℤ) (c : ℤ) :
    toPoly (l.map (fun v => v * c)) = toPoly l * C c := by
  induction l with
  | nil => simp [toPoly]
  | cons x xs ih =>
    simp only [List.map_cons, toPoly, ih, C_mul]
    ring

theorem toPolyZ_degree_lt (q : ℕ) (l : List ℤ) (n : ℕ) (h : l.length ≤ n) :
    (toPolyZ q l).degree < n := by
  rw [degree_lt_iff_coeff_zero]
  intro m hm
  rw [toPolyZ_coeff, List.getD_eq_default _ _ (le_trans h hm)]
  simp

theorem fNZ_monic {q N : ℕ} (hN : 0 < N) : (fNZ q N).Monic := by
  simpa [fNZ] using Polynomial.monic_X_pow_add_C (1 : ZMod q) (by omega : N ≠ 0)

theorem map_fN (q N : ℕ) : (fN N).map (Int.castRingHom (ZMod q)) = fNZ q N := by
  simp [fN, fNZ, Polynomial.map_add, Polynomial.map_pow, Polynomial.map_X]

theorem toPolyZ_add (q : ℕ) (a b : List ℤ) (h : a.length = b.length) :
    toPolyZ q (PolynomialRing.add (q : ℤ) a b) = toPolyZ q a + toPolyZ q b := by
  rw [PolynomialRing.add, toPolyZ_map_emod]
  show ((toPoly (List.zipWith _ a b)).map _) = _
  rw [toPoly_zipWith_add a b h, Polynomial.map_add]
  rfl

theorem toPolyZ_zipWith_add (q : ℕ) (a b : List ℤ) (h : a.length = b.length) :
    toPolyZ q (List.zipWith (fun x y => x + y) a b) = toPolyZ q a + toPolyZ q b := by
  show ((toPoly (List.zipWith _ a b)).map _) = _
  rw [toPoly_zipWith_add a b h, Polynomial.map_add]
  rfl

theorem toPolyZ_zipWith_sub (q : ℕ) (a b : List ℤ) (h : a.length = b.length) :
    toPolyZ q (List.zipWith (fun x y => x - y) a b) = toPolyZ q a - toPolyZ q b := by
  show ((toPoly (List.zipWith _ a b)).map _) = _
  rw [toPoly_zipWith_sub a b h, Polynomial.map_sub]
  rfl

theorem toPolyZ_neg (q : ℕ) (a : List ℤ) :
    toPolyZ q (PolynomialRing.neg (q : ℤ) a) = -toPolyZ q a := by
  have : PolynomialRing.neg (q : ℤ) a = (a.map (fun v => -v)).map (fun v => v % (q : ℤ)) := by
    simp [PolynomialRing.neg, List.map_map, Function.comp]
  rw [this, toPolyZ_map_emod]
  show ((toPoly (a.map _)).map _) = _
  rw [toPoly_map_neg, Polynomial.map_neg]
  rfl

theorem toPolyZ_mul_scalar (q : ℕ) (a : List ℤ) (c : ℤ) :
    toPolyZ q (PolynomialRing.mul_scalar (q : ℤ) a c) = toPolyZ q (a.map (fun v => v * c)) := by
  have : PolynomialRing.mul_scalar (q : ℤ) a c
      = (a.map (fun v => v * c)).map (fun v => v % (q : ℤ)) := by
    simp [PolynomialRing.mul_scalar, List.map_map, Function.comp]
  rw [this, toPolyZ_map_emod]

theorem toPolyZ_nmul {N : ℕ} (hN : 0 < N) (q : ℕ) (a b : List ℤ)
    (ha : a.length ≤ N) (hb : b.length ≤ N) :
    toPolyZ q (nmul N a b) = (toPolyZ q a * toPolyZ q b) %ₘ fNZ q N := by
  show ((toPoly (nmul N a b)).map _) = _
  rw [toPoly_nmul hN a b ha hb, Polynomial.map_modByMonic _ (fN_monic hN),
    Polynomial.map_mul, map_fN]
  rfl

theorem toPolyZ_mul {N : ℕ} (hN : 0 < N) (q : ℕ) (a b : List ℤ)
    (ha : a.length ≤ N) (hb : b.length ≤ N) :
    toPolyZ q (PolynomialRing.mul N (q : ℤ) a b)
      = (toPolyZ q a * toPolyZ q b) %ₘ fNZ q N := by
  rw [PolynomialRing.mul, toPolyZ_map_emod, toPolyZ_nmul hN q a b ha hb]

end NegacyclicSemantics

namespace NegacyclicSemantics

open Polynomial PolynomialRing

theorem mk_modByMonic {R : Type} [CommRing R] {f : Polynomial R} (hf : f.Monic)
    (p : Polynomial R) : AdjoinRoot.mk f (p %ₘ f) = AdjoinRoot.mk f p := by
  rw [AdjoinRoot.mk_eq_mk]
  have h0 : p %ₘ f = p - f * (p /ₘ f) := eq_sub_of_add_eq (modByMonic_add_div p hf)
  exact ⟨-(p /ₘ f), by rw [h0]; ring⟩

theorem eq_of_mk_eq_of_degree_lt {R : Type} [CommRing R] [Nontrivial R]
    {f p p' : Polynomial R} (hf : f.Monic)
    (h : AdjoinRoot.mk f p = AdjoinRoot.mk f p')
    (hp : p.degree < f.degree) (hp' : p'.degree < f.degree) : p = p' := by
  have hd : f ∣ p - p' := AdjoinRoot.mk_eq_mk.mp h
  calc p = p %ₘ f := (modByMonic_self_of_degree_lt hf hp).symm
    _ = p' %ₘ f := modByMonic_congr hf hd
    _ = p' := modByMonic_self_of_degree_lt hf hp'

theorem tensor_identity {R : Type} [CommRing R] [Nontrivial R]
    {f : Polynomial R} (hf : f.Monic)
    (A S U E E1 E2 M : Polynomial R)
    (hE1 : E1.degree < f.degree) (hM : M.degree < f.degree) :
    (-((A * S) %ₘ f + E) * U) %ₘ f + E1 + M + (((A * U) %ₘ f + E2) * S) %ₘ f
      = M + (E1 + ((E2 * S) %ₘ f - (E * U) %ₘ f)) := by
  apply eq_of_mk_eq_of_degree_lt hf
  · simp only [map_add, map_mul, map_neg, map_sub, mk_modByMonic hf]
    ring
  · refine lt_of_le_of_lt (degree_add_le _ _) (max_lt ?_ (degree_modByMonic_lt _ hf))
    refine lt_of_le_of_lt (degree_add_le _ _) (max_lt ?_ hM)
    exact lt_of_le_of_lt (degree_add_le _ _) (max_lt (degree_modByMonic_lt _ hf) hE1)
  · refine lt_of_le_of_lt (degree_add_le _ _) (max_lt hM ?_)
    refine lt_of_le_of_lt (degree_add_le _ _) (max_lt hE1 ?_)
    exact lt_of_le_of_lt (degree_sub_le _ _)
      (max_lt (degree_modByMonic_lt _ hf) (degree_modByMonic_lt _ hf))

theorem fNZ_degree {q N : ℕ} [Fact (1 < q)] (hN : 0 < N) :
    (fNZ q N).degree = (N : WithBot ℕ) :=
  Polynomial.degree_X_pow_add_C hN 1

end NegacyclicSemantics

namespace PolynomialRing

theorem add_length (q : ℤ) (a b : List ℤ) :
    (add q a b).length = min a.length b.length := by
  simp [add]

theorem sub_length (q : ℤ) (a b : List ℤ) :
    (sub q a b).length = min a.length b.length := by
  simp [sub]

theorem neg_length (q : ℤ) (a : List ℤ) : (neg q a).length = a.length := by
  simp [neg]

theorem mul_scalar_length (q : ℤ) (a : List ℤ) (c : ℤ) :
    (mul_scalar q a c).length = a.length := by
  simp [mul_scalar]

theorem nmul_length (N : ℕ) (a b : List ℤ) : (nmul N a b).length = N := by
  simp [nmul, negFold]

theorem mul_length (N : ℕ) (q : ℤ) (a b : List ℤ) : (mul N q a b).length = N := by
  simp [mul, nmul, negFold]

theorem mod_center_length (q : ℤ) (a : List ℤ) : (mod_center q a).length = a.length := by
  simp [mod_center]

end PolynomialRing

namespace BFVScheme

open PolynomialRing NegacyclicSemantics Polynomial

/-- The exact accumulated noise of a fresh encryption, `e1 + e2⊛s - e⊛u`
computed in the ring over the integers; the noise-budget bound of the spec
is a per-coefficient condition on this list. -/
def noisePoly (N : ℕ) (s e u e1 e2 : List ℤ) : List ℤ :=
  List.zipWith (fun x y => x + y) e1
    (List.zipWith (fun x y => x - y) (nmul N e2 s) (nmul N e u))

theorem noisePoly_length (N : ℕ) (s e u e1 e2 : List ℤ) (he1 : e1.length = N) :
    (noisePoly N s e u e1 e2).length = N := by
  simp [noisePoly, nmul_length, he1]

theorem noisy_congr (N : ℕ) (hN : 0 < N) (q : ℕ) (hq : 1 < q)
    (s a e u e1 e2 m : List ℤ) (delta : ℤ)
    (hs : s.length = N) (ha : a.length = N) (he : e.length = N)
    (hu : u.length = N) (he1 : e1.length = N) (he2 : e2.length = N)
    (hm : m.length = N) (i : ℕ) :
    (add (q : ℤ)
        (add (q : ℤ)
          (add (q : ℤ)
            (mul N (q : ℤ) (neg (q : ℤ) (add (q : ℤ) (mul N (q : ℤ) a s) e)) u)
            e1)
          (mul_scalar (q : ℤ) m delta))
        (mul N (q : ℤ) (add (q : ℤ) (mul N (q : ℤ) a u) e2) s)).getD i 0
      ≡ delta * m.getD i 0 + (noisePoly N s e u e1 e2).getD i 0 [ZMOD (q : ℤ)] := by
  haveI : Fact (1 < q) := ⟨hq⟩
  have hf : (fNZ q N).Monic := fNZ_monic hN
  have l_pk0 : (neg (q : ℤ) (add (q : ℤ) (mul N (q : ℤ) a s) e)).length = N := by
    simp [neg_length, add_length, mul_length, he]
  have l_c0 : (add (q : ℤ)
      (add (q : ℤ) (mul N (q : ℤ) (neg (q : ℤ) (add (q : ℤ) (mul N (q : ℤ) a s) e)) u) e1)
      (mul_scalar (q : ℤ) m delta)).length = N := by
    simp [add_length, mul_length, mul_scalar_length, he1, hm]
  have l_c1 : (add (q : ℤ) (mul N (q : ℤ) a u) e2).length = N := by
    simp [add_length, mul_length, he2]
  have key : toPolyZ q (add (q : ℤ)
        (add (q : ℤ)
          (add (q : ℤ)
            (mul N (q : ℤ) (neg (q : ℤ) (add (q : ℤ) (mul N (q : ℤ) a s) e)) u)
            e1)
          (mul_scalar (q : ℤ) m delta))
        (mul N (q : ℤ) (add (q : ℤ) (mul N (q : ℤ) a u) e2) s))
      = toPolyZ q (List.zipWith (fun x y => x + y)
          (m.map (fun v => v * delta)) (noisePoly N s e u e1 e2)) := by
    rw [toPolyZ_add q _ _ (by rw [l_c0, mul_length])]
    rw [toPolyZ_mul hN q _ s (le_of_eq l_c1) (le_of_eq hs)]
    rw [toPolyZ_add q _ _ (by simp [add_length, mul_length, he1, mul_scalar_length, hm])]
    rw [toPolyZ_add q _ _ (by simp [mul_length, he1])]
    rw [toPolyZ_mul hN q _ u (le_of_eq l_pk0) (le_of_eq hu)]
    rw [toPolyZ_add q _ _ (by simp [mul_length, he2])]
    rw [toPolyZ_mul hN q a u (le_of_eq ha) (le_of_eq hu)]
    rw [toPolyZ_neg, toPolyZ_add q _ _ (by simp [mul_length, he])]
    rw [toPolyZ_mul hN q a s (le_of_eq ha) (le_of_eq hs)]
    rw [toPolyZ_mul_scalar]
    rw [toPolyZ_zipWith_add q _ _
      (by simp [List.length_map, hm, noisePoly_length N s e u e1 e2 he1])]
    rw [noisePoly, toPolyZ_zipWith_add q _ _ (by simp [nmul_length, he1])]
    rw [toPolyZ_zipWith_sub q _ _ (by simp [nmul_length])]
    rw [toPolyZ_nmul hN q e2 s (le_of_eq he2) (le_of_eq hs)]
    rw [toPolyZ_nmul hN q e u (le_of_eq he) (le_of_eq hu)]
    refine tensor_identity hf (toPolyZ q a) (toPolyZ q s) (toPolyZ q u)
      (toPolyZ q e) (toPolyZ q e1) (toPolyZ q e2) (toPolyZ q (m.map (fun v => v * delta)))
      ?_ ?_
    · rw [fNZ_degree hN]
      exact toPolyZ_degree_lt q e1 N (le_of_eq he1)
    · rw [fNZ_degree hN]
      exact toPolyZ_degree_lt q _ N (by simp [hm])
  have hcoeff := congrArg (fun p => Polynomial.coeff p i) key
  simp only [toPolyZ_coeff] at hcoeff
  rw [getD_zipWith _ (by ring) _ _
      (by simp [hm, noisePoly_length N s e u e1 e2 he1]) i] at hcoeff
  rw [getD_map_zero (fun v => v * delta) (by ring) m i] at hcoeff
  have h2 := (ZMod.intCast_eq_intCast_iff _ _ _).mp hcoeff
  simpa [mul_comm] using h2

end BFVScheme

namespace PolynomialRing

theorem mem_add_bound {q : ℤ} (hq : 0 < q) (a b : List ℤ) :
    ∀ x ∈ add q a b, 0 ≤ x ∧ x < q := by
  intro x hx
  obtain ⟨y, -, rfl⟩ := List.mem_map.mp hx
  exact ⟨Int.emod_nonneg y (ne_of_gt hq), Int.emod_lt_of_pos y hq⟩

theorem mem_sub_bound {q : ℤ} (hq : 0 < q) (a b : List ℤ) :
    ∀ x ∈ sub q a b, 0 ≤ x ∧ x < q := by
  intro x hx
  obtain ⟨y, -, rfl⟩ := List.mem_map.mp hx
  exact ⟨Int.emod_nonneg y (ne_of_gt hq), Int.emod_lt_of_pos y hq⟩

theorem mem_neg_bound {q : ℤ} (hq : 0 < q) (a : List ℤ) :
    ∀ x ∈ neg q a, 0 ≤ x ∧ x < q := by
  intro x hx
  obtain ⟨y, -, rfl⟩ := List.mem_map.mp hx
  exact ⟨Int.emod_nonneg _ (ne_of_gt hq), Int.emod_lt_of_pos _ hq⟩

theorem mem_mul_scalar_bound {q : ℤ} (hq : 0 < q) (a : List ℤ) (c : ℤ) :
    ∀ x ∈ mul_scalar q a c, 0 ≤ x ∧ x < q := by
  intro x hx
  obtain ⟨y, -, rfl⟩ := List.mem_map.mp hx
  exact ⟨Int.emod_nonneg _ (ne_of_gt hq), Int.emod_lt_of_pos _ hq⟩

theorem mem_mul_bound {N : ℕ} {q : ℤ} (hq : 0 < q) (a b : List ℤ) :
    ∀ x ∈ mul N q a b, 0 ≤ x ∧ x < q := by
  intro x hx
  obtain ⟨y, -, rfl⟩ := List.mem_map.mp hx
  exact ⟨Int.emod_nonneg y (ne_of_gt hq), Int.emod_lt_of_pos y hq⟩

end PolynomialRing

namespace BFVScheme

open PolynomialRing

/-- Exact rounding arithmetic of the decryption scaling on one coefficient:
if `v ≡ delta*m + w (mod q)` with `v ∈ [0,q)`, `m ∈ [0,t)` and the noise
term `w*t - m*(q mod t) + q/2` lands inside `[0, q)`, then
`((v*t + q/2) // q) mod t` recovers `m` exactly. -/
theorem decrypt_coeff_exact (q t delta m w v : ℤ)
    (hq : 0 < q) (ht : 0 < t) (hdelta : delta = q / t)
    (hm0 : 0 ≤ m) (hmt : m < t)
    (hv : v ≡ delta * m + w [ZMOD q]) (hv0 : 0 ≤ v) (hvq : v < q)
    (hB0 : 0 ≤ w * t - m * (q % t) + q / 2)
    (hBq : w * t - m * (q % t) + q / 2 < q) :
    ((v * t + q / 2).fdiv q) % t = m := by
  have hveq : v = (delta * m + w) % q := by
    have h1 : v % q = (delta * m + w) % q := hv
    rw [← h1, Int.emod_eq_of_lt hv0 hvq]
  have hDv : v = delta * m + w - q * ((delta * m + w) / q) := by
    rw [hveq, Int.emod_def]
  have hdt : delta * t = q - q % t := by
    rw [hdelta]
    have h2 := Int.ediv_add_emod q t
    linarith
  have hnum : v * t + q / 2
      = (w * t - m * (q % t) + q / 2) + q * (m - ((delta * m + w) / q) * t) := by
    linear_combination t * hDv + m * hdt
  have hscaled : (v * t + q / 2).fdiv q = m - ((delta * m + w) / q) * t := by
    rw [Int.fdiv_eq_ediv _ (le_of_lt hq), hnum,
      Int.add_mul_ediv_left _ _ (ne_of_gt hq),
      Int.ediv_eq_zero_of_lt hB0 hBq, zero_add]
  rw [hscaled]
  have h3 : (m - ((delta * m + w) / q) * t) % t = m % t := by
    conv_lhs => rw [sub_eq_add_neg, ← neg_mul]
    exact Int.add_mul_emod_self
  rw [h3, Int.emod_eq_of_lt hm0 hmt]

end BFVScheme

namespace BFVScheme

open PolynomialRing

/-- Claim C1 (amended): for valid parameters (`N` a power of two,
`q > t > 0`, `delta = q // t`), every plaintext `m` with all `N`
coefficients in `[0, t)`, sampler outputs `s, u` ternary and `e, e1, e2`
clipped within the installed bound `B`, and — as the spec's §4.6
correctness condition requires — the per-coefficient noise budget
`0 ≤ w_i·t - m_i·(q mod t) + ⌊q/2⌋ < q` for the exact noise
`w = e1 + e2⊛s - e⊛u`, decrypting with the matching secret key the
ciphertext that `encrypt` produces from `m` returns exactly `m`.
Without the noise-budget hypothesis the claim is false
(see the counterexample). -/
theorem claim_C1_amended (N q : ℕ) (t delta B : ℤ)
    (s a e u e1 e2 m : List ℤ)
    (hN : 0 < N) (hNpow : ∃ k, N = 2 ^ k)
    (ht : 0 < t) (htq : t < (q : ℤ)) (hdelta : delta = (q : ℤ) / t)
    (hs : s.length = N) (ha : a.length = N) (he : e.length = N)
    (hu : u.length = N) (he1 : e1.length = N) (he2 : e2.length = N)
    (hm : m.length = N)
    (hster : ∀ x ∈ s, x = -1 ∨ x = 0 ∨ x = 1)
    (huter : ∀ x ∈ u, x = -1 ∨ x = 0 ∨ x = 1)
    (heB : ∀ x ∈ e, -B ≤ x ∧ x ≤ B)
    (he1B : ∀ x ∈ e1, -B ≤ x ∧ x ≤ B)
    (he2B : ∀ x ∈ e2, -B ≤ x ∧ x ≤ B)
    (hmrange : ∀ x ∈ m, 0 ≤ x ∧ x < t)
    (hnoise : ∀ i, i < N →
      0 ≤ (noisePoly N s e u e1 e2).getD i 0 * t
            - m.getD i 0 * ((q : ℤ) % t) + (q : ℤ) / 2 ∧
      (noisePoly N s e u e1 e2).getD i 0 * t
            - m.getD i 0 * ((q : ℤ) % t) + (q : ℤ) / 2 < (q : ℤ)) :
    decryptComponents N (q : ℤ) t s
      (encryptComponents N (q : ℤ) delta (key_generation N (q : ℤ) s a e) m u e1 e2)
      = m := by
  have hq0 : (0 : ℤ) < q := lt_trans ht htq
  have hq1 : 1 < q := by
    have h1 : (1 : ℤ) < (q : ℤ) := lt_of_le_of_lt (by omega) htq
    exact_mod_cast h1
  have hc0 : (encryptComponents N (q : ℤ) delta (key_generation N (q : ℤ) s a e)
        m u e1 e2).getD 0 []
      = add (q : ℤ)
          (add (q : ℤ) (mul N (q : ℤ) (neg (q : ℤ) (add (q : ℤ) (mul N (q : ℤ) a s) e)) u) e1)
          (mul_scalar (q : ℤ) m delta) := rfl
  have hc1 : (encryptComponents N (q : ℤ) delta (key_generation N (q : ℤ) s a e)
        m u e1 e2).getD 1 []
      = add (q : ℤ) (mul N (q : ℤ) a u) e2 := rfl
  show (add (q : ℤ)
      ((encryptComponents N (q : ℤ) delta (key_generation N (q : ℤ) s a e) m u e1 e2).getD 0 [])
      (mul N (q : ℤ)
        ((encryptComponents N (q : ℤ) delta (key_generation N (q : ℤ) s a e) m u e1 e2).getD 1 [])
        s)).map (fun v => ((v * t + (q : ℤ) / 2).fdiv (q : ℤ)) % t) = m
  rw [hc0, hc1]
  have l_noisy : (add (q : ℤ)
      (add (q : ℤ)
        (add (q : ℤ) (mul N (q : ℤ) (neg (q : ℤ) (add (q : ℤ) (mul N (q : ℤ) a s) e)) u) e1)
        (mul_scalar (q : ℤ) m delta))
      (mul N (q : ℤ) (add (q : ℤ) (mul N (q : ℤ) a u) e2) s)).length = N := by
    simp [add_length, mul_length, mul_scalar_length, he1, hm]
  apply List.ext_getElem
  · rw [List.length_map, l_noisy, hm]
  · intro i h1 h2
    rw [List.getElem_map]
    have hiN : i < N := by
      rw [hm] at h2
      exact h2
    have hlen2 : i < (add (q : ℤ)
        (add (q : ℤ)
          (add (q : ℤ) (mul N (q : ℤ) (neg (q : ℤ) (add (q : ℤ) (mul N (q : ℤ) a s) e)) u) e1)
          (mul_scalar (q : ℤ) m delta))
        (mul N (q : ℤ) (add (q : ℤ) (mul N (q : ℤ) a u) e2) s)).length := by
      rw [l_noisy]
      exact hiN
    rw [← List.getD_eq_getElem _ 0 hlen2]
    have hvmem := List.getElem_mem hlen2
    rw [← List.getD_eq_getElem _ 0 hlen2] at hvmem
    have hvb := mem_add_bound hq0 _ _ _ hvmem
    have hcong := noisy_congr N hN q hq1 s a e u e1 e2 m delta hs ha he hu he1 he2 hm i
    have hmmem : m.getD i 0 ∈ m := by
      rw [List.getD_eq_getElem m 0 h2]
      exact List.getElem_mem h2
    have hmr := hmrange _ hmmem
    have hfinal := decrypt_coeff_exact (q : ℤ) t delta (m.getD i 0)
      ((noisePoly N s e u e1 e2).getD i 0) _ hq0 ht hdelta hmr.1 hmr.2
      hcong hvb.1 hvb.2 (hnoise i hiN).1 (hnoise i hiN).2
    rw [hfinal]
    exact List.getD_eq_getElem m 0 h2

end BFVScheme

namespace BFVScheme

/-- Claim C1 counterexample: with the valid parameters `N = 1 = 2^0`,
`q = qOf 2 = 3 > t = 2`, `delta = q // t = 1`, secret `s = [1]` (ternary),
`a = [0]`, `e = [0]`, plaintext `m = [0]` (in `[0, t)`), and sampler
outputs `u = [0]` (ternary), `e1 = [1]`, `e2 = [0]` (all within the
installed bound `18 = 6 * int(3.2)`), encryption followed by decryption
with the matching secret key returns `[1] ≠ [0] = m`: the claim as stated
(with no noise-budget restriction) is false. -/
theorem claim_C1_counterexample :
    qOf 2 = 3 ∧ (1 : ℕ) = 2 ^ 0 ∧ (2 : ℤ) < 3 ∧ deltaOf 3 2 = 1 ∧
    (∀ x ∈ ([1] : List ℤ), x = -1 ∨ x = 0 ∨ x = 1) ∧
    (∀ x ∈ ([0] : List ℤ), x = -1 ∨ x = 0 ∨ x = 1) ∧
    (∀ x ∈ ([1] : List ℤ), -18 ≤ x ∧ x ≤ 18) ∧
    (∀ x ∈ ([0] : List ℤ), (0 : ℤ) ≤ x ∧ x < 2) ∧
    encrypt 1 3 2 1 (some (key_generation 1 3 [1] [0] [0])) [0] [0] [1] [0]
      = .ok ⟨[[1], [0]], ⟨1, 2, 3⟩⟩ ∧
    decrypt 1 3 2 [1] ⟨[[1], [0]], ⟨1, 2, 3⟩⟩ = [1] ∧
    ([1] : List ℤ) ≠ ([0] : List ℤ) :=
  ⟨by decide, by decide, by decide, by decide, by decide, by decide,
   by decide, by decide, rfl, by decide, by decide⟩

/-- Claim C1 witness: the amended theorem applied at `N = 1`, `q = 63`,
`t = 4`, `delta = 15`, with noise `w = 0` well inside the budget. -/
theorem claim_C1_witness :
    decryptComponents 1 (63 : ℕ) 4 [1]
      (encryptComponents 1 (63 : ℕ) 15 (key_generation 1 (63 : ℕ) [1] [5] [1]) [2] [1] [1] [0])
      = [2] :=
  claim_C1_amended 1 63 4 15 18 [1] [5] [1] [1] [1] [0] [2]
    (by decide) ⟨0, by decide⟩ (by decide) (by decide) (by decide)
    (by decide) (by decide) (by decide) (by decide) (by decide) (by decide)
    (by decide) (by decide) (by decide) (by decide) (by decide) (by decide)
    (by decide)
    (by intro i hi; have h0 := Nat.lt_one_iff.mp hi; subst h0; decide)

end BFVScheme

namespace BFVScheme

open PolynomialRing

/-- Claim C2 counterexample: with `N = 1`, `t = 2`, `q = qOf 2 = 3` and the
two size-2 ciphertexts both `([1], [1])`, the middle component computed by
`multiply` (rescaling each of the two cross products separately, then
adding mod q) is `[2]`, while the spec's formula (rescaling the completed
sum `c10*c21 + c11*c20` once per coefficient) gives `[1]`: the claim that
rescaling is applied once to the completed sum is false of the code. -/
theorem claim_C2_counterexample :
    qOf 2 = 3 ∧
    (multiply 1 2 (qOf 2) ⟨[[1], [1]], ⟨1, 2, 3⟩⟩ ⟨[[1], [1]], ⟨1, 2, 3⟩⟩).components.getD 1 []
      = [2] ∧
    SpecModel.multiplyMiddle 1 2 (qOf 2) [1] [1] [1] [1] = [1] ∧
    (multiply 1 2 (qOf 2) ⟨[[1], [1]], ⟨1, 2, 3⟩⟩ ⟨[[1], [1]], ⟨1, 2, 3⟩⟩).components.getD 1 []
      ≠ SpecModel.multiplyMiddle 1 2 (qOf 2) [1] [1] [1] [1] := by
  refine ⟨by decide, by decide, by decide, by decide⟩

/-- Claim C2 (amended): in `multiply` each of the two cross products
`c10·c21` and `c11·c20` is computed in the ring over the integers with no
reduction mod q during the product, the rescaling formula
`((v·t + ⌊q/2⌋) ÷ q) mod q` is applied separately to each of the two
products, and the two rescaled results are then added mod q — not applied
once to the completed sum. -/
theorem claim_C2_amended (N : ℕ) (t q : ℤ) (ct1 ct2 : Ciphertext)
    (c10 c11 c20 c21 : List ℤ)
    (h1 : ct1.components = [c10, c11]) (h2 : ct2.components = [c20, c21]) :
    (multiply N t q ct1 ct2).components.getD 1 []
      = add q ((nmul N c10 c21).map (fun v => ((v * t + q / 2).fdiv q) % q))
              ((nmul N c11 c20).map (fun v => ((v * t + q / 2).fdiv q) % q)) := by
  simp [multiply, mul_scale, h1, h2]

/-- Claim C2 witness: the amended middle-component formula evaluated at
the counterexample's input. -/
theorem claim_C2_witness :
    (multiply 1 2 3 ⟨[[1], [1]], ⟨1, 2, 3⟩⟩ ⟨[[1], [1]], ⟨1, 2, 3⟩⟩).components.getD 1 []
      = add 3 ((nmul 1 [1] [1]).map (fun v => ((v * 2 + 3 / 2).fdiv 3) % 3))
              ((nmul 1 [1] [1]).map (fun v => ((v * 2 + 3 / 2).fdiv 3) % 3)) :=
  claim_C2_amended 1 2 3 ⟨[[1], [1]], ⟨1, 2, 3⟩⟩ ⟨[[1], [1]], ⟨1, 2, 3⟩⟩
    [1] [1] [1] [1] rfl rfl

/-- Claim C3 counterexample: with `N = 1`, `q = 3`, `t = 2`, `s = [1]` and
the size-3 ciphertext `([0], [0], [1])`, the source's `decrypt` returns
`[0]` (no rejection), while `ν = c0 + c1·s + c2·s²` would give `[1]`;
moreover replacing `c2 = [1]` by `[0]` leaves the result unchanged, so the
third component does not affect decryption and no rejection occurs. -/
theorem claim_C3_counterexample :
    decryptComponents 1 3 2 [1] [[0], [0], [1]] = [0] ∧
    SpecModel.decryptSize3 1 3 2 [1] [[0], [0], [1]] = [1] ∧
    decryptComponents 1 3 2 [1] [[0], [0], [1]]
      ≠ SpecModel.decryptSize3 1 3 2 [1] [[0], [0], [1]] ∧
    decryptComponents 1 3 2 [1] [[0], [0], [1]]
      = decryptComponents 1 3 2 [1] [[0], [0], [0]] := by
  refine ⟨by decide, by decide, by decide, by decide⟩

/-- Claim C3 (amended): `decrypt` slices `components[:2]` and computes
`ν = c0 + c1·s (mod q)` for every ciphertext size; any components beyond
the first two are silently ignored (neither of the spec's two allowed
policies — using `c2·s²` or rejecting size 3 — is implemented). -/
theorem claim_C3_amended (N : ℕ) (q t : ℤ) (s c0 c1 : List ℤ)
    (rest : List (List ℤ)) :
    decryptComponents N q t s (c0 :: c1 :: rest)
      = decryptComponents N q t s [c0, c1] := rfl

/-- Claim C4 counterexample: with `q = qOf 4 = 15`, `T = TOf 4 = 4`,
relinearization key `k0 = ([1],[0])`, `k1 = ([0],[0])` and the size-3
ciphertext `([0],[0],[14])`: the source decomposes the stored
representative `14` as `(14 mod 4, 14 div 4) = (2, 3)`, giving `c0' = [2]`,
while decomposing the centered representative `14 - 15 = -1` as the spec
prescribes gives `(3, -1)` and `c0' = [3]`: the claim that decomposition
works on centered representatives is false of the code. -/
theorem claim_C4_counterexample :
    qOf 4 = 15 ∧ TOf 4 = 4 ∧
    relinearize 1 15 4 (some (([1], [0]), ([0], [0]))) ⟨[[0], [0], [14]], ⟨1, 2, 15⟩⟩
      = .ok ⟨[[2], [0]], ⟨1, 2, 15⟩⟩ ∧
    SpecModel.relinearizeCentered 1 15 4 (([1], [0]), ([0], [0]))
        ⟨[[0], [0], [14]], ⟨1, 2, 15⟩⟩
      = ⟨[[3], [0]], ⟨1, 2, 15⟩⟩ ∧
    (Ciphertext.mk [[2], [0]] ⟨1, 2, 15⟩) ≠ (Ciphertext.mk [[3], [0]] ⟨1, 2, 15⟩) := by
  refine ⟨by decide, by decide, rfl, by decide, by decide⟩

/-- Claim C4 (amended): `relinearize` on a size-3 ciphertext decomposes
`d2` per coefficient on the stored representatives in `[0, q)` — not on
centered representatives — as `d2_0 = d2 mod T` and `d2_1 = ⌊d2 / T⌋`
(so that `d2_0 + T·d2_1 = d2` per coefficient), and returns
`c0' = d0 + d2_0·k0.b + d2_1·k1.b (mod q)`,
`c1' = d1 + d2_0·k0.a + d2_1·k1.a (mod q)`. -/
theorem claim_C4_amended (N : ℕ) (q T : ℤ) (rk : RelinKey) (ct : Ciphertext)
    (d0 d1 d2 : List ℤ) (h3 : ct.components = [d0, d1, d2]) (hT : 0 < T) :
    relinearize N q T (some rk) ct
      = .ok ⟨[add q d0 (add q (mul N q (d2.map (fun v => v % T)) rk.1.1)
                              (mul N q (d2.map (fun v => v.fdiv T)) rk.2.1)),
              add q d1 (add q (mul N q (d2.map (fun v => v % T)) rk.1.2)
                              (mul N q (d2.map (fun v => v.fdiv T)) rk.2.2))],
             ct.params⟩ ∧
    ∀ v : ℤ, v % T + T * (v.fdiv T) = v := by
  constructor
  · simp [relinearize, Ciphertext.size, h3]
  · intro v
    rw [Int.fdiv_eq_ediv _ (le_of_lt hT)]
    exact Int.emod_add_ediv v T

/-- Claim C4 witness: the amended relinearization formula evaluated at the
counterexample's size-3 ciphertext, together with the decomposition
identity. -/
theorem claim_C4_witness :
    (relinearize 1 15 4 (some (([1], [0]), ([0], [0]))) ⟨[[0], [0], [14]], ⟨1, 2, 15⟩⟩
      = .ok ⟨[add 15 [0] (add 15 (mul 1 15 (([14] : List ℤ).map (fun v => v % 4)) [1])
                                 (mul 1 15 (([14] : List ℤ).map (fun v => v.fdiv 4)) [0])),
              add 15 [0] (add 15 (mul 1 15 (([14] : List ℤ).map (fun v => v % 4)) [0])
                                 (mul 1 15 (([14] : List ℤ).map (fun v => v.fdiv 4)) [0]))],
             ⟨1, 2, 15⟩⟩) ∧
    ∀ v : ℤ, v % 4 + 4 * (v.fdiv 4) = v :=
  claim_C4_amended 1 15 4 (([1], [0]), ([0], [0])) ⟨[[0], [0], [14]], ⟨1, 2, 15⟩⟩
    [0] [0] [14] rfl (by decide)

/-- Claim C5 counterexample: with `q = qOf 10 = 1023`, `t = 256` and the
plaintext with coefficient 0 equal to `156 = t - 100` (the decryption of a
homomorphic subtraction whose true difference is `-100`), `decode`
returns the unsigned value `156`, not the centered value `-100` required
by the claim. -/
theorem claim_C5_counterexample :
    qOf 10 = 1023 ∧
    decode 1023 256 [156] = 156 ∧
    SpecModel.decodeCentered 256 [156] = -100 ∧
    decode 1023 256 [156] ≠ SpecModel.decodeCentered 256 [156] := by
  refine ⟨by decide, by decide, by decide, by decide⟩

/-- Claim C5 (amended): for a plaintext whose coefficient 0 lies in
`[0, t)` with `t - 1 ≤ ⌊q/2⌋` (always the case for the scheme's
parameters), `decode` returns that coefficient unchanged — the unsigned
representative in `[0, t)`, never a negative centered value: the
`mod_center` step uses the ring modulus `q`, not `t`, and is the identity
there.  A true difference of `-100` therefore decodes to `t - 100`. -/
theorem claim_C5_amended (q t : ℤ) (pt : List ℤ)
    (hq : 0 < q) (ht : 0 < t)
    (h0 : 0 ≤ pt.getD 0 0) (h1 : pt.getD 0 0 < t) (h2 : t - 1 ≤ q / 2) :
    decode q t pt = pt.getD 0 0 := by
  have hq2 : (0 : ℤ) ≤ q / 2 := Int.ediv_nonneg (le_of_lt hq) (by norm_num)
  rw [decode, mod_center,
    NegacyclicSemantics.getD_map_zero _ (by rw [if_neg (not_lt.mpr hq2)]) pt 0,
    if_neg (not_lt.mpr (by omega)), Int.emod_eq_of_lt h0 h1]

/-- Claim C5 witness: decode of a fresh plaintext coefficient `42` with
`t = 256`, `q = 1023`. -/
theorem claim_C5_witness : decode 1023 256 [42] = 42 :=
  claim_C5_amended 1023 256 [42] (by decide) (by decide) (by decide)
    (by decide) (by decide)

end BFVScheme

namespace FastFHE

open PolynomialRing

/-- Claim C7 counterexample: two ciphertexts whose parameters differ both
by identity and by value (`q = 3` versus `q = 5`); `homomorphic_sub`
nevertheless returns a result ciphertext (componentwise difference,
carrying the first argument's parameters) and raises nothing — in
particular no `ParameterMismatch`, which does not exist anywhere in the
source. -/
theorem claim_C7_counterexample :
    (Ciphertext.mk [[1], [1]] ⟨1, 2, 3⟩).params
      ≠ (Ciphertext.mk [[0], [0]] ⟨1, 2, 5⟩).params ∧
    homomorphic_sub 3 ⟨[[1], [1]], ⟨1, 2, 3⟩⟩ ⟨[[0], [0]], ⟨1, 2, 5⟩⟩
      = .ok ⟨[[1], [1]], ⟨1, 2, 3⟩⟩ ∧
    ∀ msg, homomorphic_sub 3 ⟨[[1], [1]], ⟨1, 2, 3⟩⟩ ⟨[[0], [0]], ⟨1, 2, 5⟩⟩
      ≠ .error (.parameterMismatch msg) := by
  refine ⟨by decide, rfl, ?_⟩
  intro msg h
  simp [homomorphic_sub] at h

/-- Claim C7 (amended): `homomorphic_sub` performs the componentwise
subtraction unconditionally — it contains no parameter, fingerprint or
identity check — and always returns a result ciphertext carrying the
first operand's parameters, also when the two ciphertexts' parameters
match neither by identity nor by value. -/
theorem claim_C7_amended (q : ℤ) (ct1 ct2 : Ciphertext) :
    homomorphic_sub q ct1 ct2
      = .ok ⟨[sub q (ct1.components.getD 0 []) (ct2.components.getD 0 []),
              sub q (ct1.components.getD 1 []) (ct2.components.getD 1 [])],
             ct1.params⟩ := rfl

end FastFHE

namespace BFVScheme

open PolynomialRing

/-- Claim C8 counterexample: calling `encrypt` with no public key
installed raises `ValueError("No Public Key")` — the Python builtin
`ValueError`, not the `KeyError` kind named by the spec. -/
theorem claim_C8_counterexample :
    encrypt 1 3 2 1 none [0] [0] [0] [0] = .error (.valueError "No Public Key") ∧
    ∀ msg, encrypt 1 3 2 1 none [0] [0] [0] [0] ≠ .error (.keyError msg) := by
  refine ⟨rfl, ?_⟩
  intro msg h
  simp [encrypt] at h

/-- Claim C8 (amended): calling `encrypt` when no public key has been
installed fails with `ValueError("No Public Key")` (not with the
`KeyError` kind the spec names), and encryption succeeds whenever a
public key is installed. -/
theorem claim_C8_amended :
    (∀ (N : ℕ) (q t delta : ℤ) (m u e1 e2 : List ℤ),
      encrypt N q t delta none m u e1 e2 = .error (.valueError "No Public Key")) ∧
    (∀ (N : ℕ) (q t delta : ℤ) (pk : List ℤ × List ℤ) (m u e1 e2 : List ℤ),
      encrypt N q t delta (some pk) m u e1 e2
        = .ok ⟨encryptComponents N q delta pk m u e1 e2, ⟨N, t, q⟩⟩) :=
  ⟨fun _ _ _ _ _ _ _ _ => rfl, fun _ _ _ _ _ _ _ _ _ => rfl⟩

/-- Claim C9: for input polynomials of length `N` with coefficients in
`[0, q)` (and any integer scalar), every polynomial returned by the ring
operations `add`, `sub`, `neg`, `mul_scalar` and `mul` has length `N` and
every coefficient in `[0, q)`. -/
theorem claim_C9_ring_ops (N : ℕ) (q : ℤ) (a b : List ℤ) (c : ℤ)
    (hq : 0 < q) (ha : a.length = N) (hb : b.length = N)
    (hain : ∀ x ∈ a, 0 ≤ x ∧ x < q) (hbin : ∀ x ∈ b, 0 ≤ x ∧ x < q) :
    ((add q a b).length = N ∧ ∀ x ∈ add q a b, 0 ≤ x ∧ x < q) ∧
    ((sub q a b).length = N ∧ ∀ x ∈ sub q a b, 0 ≤ x ∧ x < q) ∧
    ((neg q a).length = N ∧ ∀ x ∈ neg q a, 0 ≤ x ∧ x < q) ∧
    ((mul_scalar q a c).length = N ∧ ∀ x ∈ mul_scalar q a c, 0 ≤ x ∧ x < q) ∧
    ((mul N q a b).length = N ∧ ∀ x ∈ mul N q a b, 0 ≤ x ∧ x < q) := by
  refine ⟨⟨?_, mem_add_bound hq a b⟩, ⟨?_, mem_sub_bound hq a b⟩,
    ⟨?_, mem_neg_bound hq a⟩, ⟨?_, mem_mul_scalar_bound hq a c⟩,
    ⟨?_, mem_mul_bound hq a b⟩⟩ <;>
  simp [add_length, sub_length, neg_length, mul_scalar_length, mul_length, ha, hb]

/-- Claim C9 witness: the ring-operation invariants at `N = 2`, `q = 5`,
`a = [1, 4]`, `b = [2, 3]`, scalar `7`. -/
theorem claim_C9_witness :
    ((add 5 [1, 4] [2, 3]).length = 2 ∧ ∀ x ∈ add 5 [1, 4] [2, 3], 0 ≤ x ∧ x < 5) ∧
    ((sub 5 [1, 4] [2, 3]).length = 2 ∧ ∀ x ∈ sub 5 [1, 4] [2, 3], 0 ≤ x ∧ x < 5) ∧
    ((neg 5 [1, 4]).length = 2 ∧ ∀ x ∈ neg 5 [1, 4], 0 ≤ x ∧ x < 5) ∧
    ((mul_scalar 5 [1, 4] 7).length = 2 ∧ ∀ x ∈ mul_scalar 5 [1, 4] 7, 0 ≤ x ∧ x < 5) ∧
    ((mul 2 5 [1, 4] [2, 3]).length = 2 ∧ ∀ x ∈ mul 2 5 [1, 4] [2, 3], 0 ≤ x ∧ x < 5) :=
  claim_C9_ring_ops 2 5 [1, 4] [2, 3] 7 (by decide) (by decide) (by decide)
    (by decide) (by decide)

/-- Claim C10: for every ciphertext whose size is not 3 (in particular
every size-2 ciphertext), `relinearize` returns that ciphertext unchanged
— same components, no error — even when no relinearization key has been
generated (`rk = none`): the size test precedes any access to the key. -/
theorem claim_C10_relinearize_passthrough (N : ℕ) (q T : ℤ)
    (rk : Option RelinKey) (ct : Ciphertext) (h : ct.size ≠ 3) :
    relinearize N q T rk ct = .ok ct := by
  simp [relinearize, h]

/-- Claim C10 witness: a size-2 ciphertext with no relinearization key
installed passes through unchanged. -/
theorem claim_C10_witness :
    relinearize 1 3 2 none ⟨[[0], [1]], ⟨1, 2, 3⟩⟩ = .ok ⟨[[0], [1]], ⟨1, 2, 3⟩⟩ :=
  claim_C10_relinearize_passthrough 1 3 2 none ⟨[[0], [1]], ⟨1, 2, 3⟩⟩ (by decide)

end BFVScheme

namespace BFVSchemeAccelerated

theorem isqrtGo_upper (n : ℕ) : ∀ (fuel acc : ℕ),
    n < (acc + fuel + 1) * (acc + fuel + 1) →
    n < (isqrtGo n fuel acc + 1) * (isqrtGo n fuel acc + 1) := by
  intro fuel
  induction fuel with
  | zero =>
    intro acc h
    simpa [isqrtGo] using h
  | succ f ih =>
    intro acc h
    rw [isqrtGo]
    by_cases hc : (acc + 1) * (acc + 1) ≤ n
    · rw [if_pos hc]
      have heq : acc + 1 + f + 1 = acc + (f + 1) + 1 := by omega
      exact ih (acc + 1) (by rw [heq]; exact h)
    · rw [if_neg hc]
      push_neg at hc
      exact hc

theorem isqrt_upper (n : ℕ) : n < (isqrt n + 1) * (isqrt n + 1) := by
  have h : n < (0 + n + 1) * (0 + n + 1) := by nlinarith
  exact isqrtGo_upper n n 0 h

theorem is_prime_sound (n : ℕ) (hodd : n % 2 = 1) (h3 : 3 ≤ n)
    (hp : is_prime n = true) : Nat.Prime n := by
  by_contra hnp
  have hmf : n.minFac.Prime := Nat.minFac_prime (by omega)
  have hdvd : n.minFac ∣ n := Nat.minFac_dvd n
  have hsq : n.minFac * n.minFac ≤ n := by
    have h4 := Nat.minFac_sq_le_self (by omega) hnp
    rw [pow_two] at h4
    exact h4
  have hle : n.minFac ≤ isqrt n := by
    by_contra hgt
    push_neg at hgt
    have h5 : (isqrt n + 1) * (isqrt n + 1) ≤ n.minFac * n.minFac :=
      Nat.mul_le_mul (by omega) (by omega)
    have h6 := isqrt_upper n
    omega
  have hne2 : n.minFac ≠ 2 := by
    intro h2
    have h7 : (2 : ℕ) ∣ n := h2 ▸ hdvd
    omega
  have hpodd : n.minFac % 2 = 1 := Nat.odd_iff.mp (hmf.odd_of_ne_two hne2)
  have hp3 : 3 ≤ n.minFac := by
    have := hmf.two_le
    omega
  have hmem : n.minFac ∈ List.range' 3 ((isqrt n - 1) / 2) 2 := by
    rw [List.mem_range']
    exact ⟨(n.minFac - 3) / 2, by omega, by omega⟩
  simp only [is_prime, hodd] at hp
  norm_num at hp
  have hz : n % n.minFac = 0 := Nat.dvd_iff_mod_eq_zero.mp hdvd
  exact hp _ hmem hz

theorem findLoop_some : ∀ (fuel q m r : ℕ), findLoop fuel q m = some r →
    is_prime r = true ∧ q ≤ r ∧ ∃ j, r = q + j * m := by
  intro fuel
  induction fuel with
  | zero =>
    intro q m r h
    simp [findLoop] at h
  | succ f ih =>
    intro q m r h
    rw [findLoop] at h
    by_cases hp : is_prime q
    · rw [if_pos hp] at h
      obtain rfl : q = r := by simpa using h
      exact ⟨hp, le_refl _, 0, by omega⟩
    · rw [if_neg hp] at h
      obtain ⟨h1, h2, j, h3⟩ := ih (q + m) m r h
      exact ⟨h1, by omega, j + 1, by rw [h3]; ring⟩

/-- Claim C6 (amended): for every input with `N = 2^k` a power of two and
`2N ≤ 2^q_bits` (so that rounding `2^q_bits` down to a multiple of `2N`
is nondegenerate — for `2N > 2^q_bits` the selector returns 1, which is
not prime; see the counterexample), whenever the candidate loop of
`_find_ntt_prime` terminates with `q`, that `q` is prime, `q ≡ 1 (mod 2N)`
and `q ≥ 2^(q_bits−1)`, found by rounding `2^q_bits` down to the nearest
multiple of `2N`, adding 1, and advancing by `2N` until a prime is
reached. -/
theorem claim_C6_amended (fuel k qbits N p : ℕ)
    (hN : N = 2 ^ k) (hle : 2 * N ≤ 2 ^ qbits)
    (hfind : find_ntt_prime fuel (2 ^ qbits) N = some p) :
    Nat.Prime p ∧ p % (2 * N) = 1 ∧ 2 ^ (qbits - 1) ≤ p := by
  have hNpos : 1 ≤ N := by
    rw [hN]
    exact Nat.one_le_two_pow
  have hdvd : 2 * N ∣ 2 ^ qbits := by
    rw [hN, show 2 * 2 ^ k = 2 ^ (k + 1) by ring]
    apply pow_dvd_pow
    have h8 : (2 : ℕ) ^ (k + 1) ≤ 2 ^ qbits := by
      rw [show (2 : ℕ) ^ (k + 1) = 2 * 2 ^ k by ring, ← hN]
      exact hle
    exact (Nat.pow_le_pow_iff_right (by norm_num)).mp h8
  have hstart : 2 ^ qbits / (2 * N) * (2 * N) = 2 ^ qbits := Nat.div_mul_cancel hdvd
  rw [find_ntt_prime, hstart] at hfind
  obtain ⟨hp, hge, j, hj⟩ := findLoop_some fuel (2 ^ qbits + 1) (2 * N) p hfind
  obtain ⟨c, hc⟩ := hdvd
  have hmod : p % (2 * N) = 1 := by
    rw [hj, hc, show 2 * N * c + 1 + j * (2 * N) = 1 + (c + j) * (2 * N) by ring,
      Nat.add_mul_mod_self_right]
    exact Nat.mod_eq_of_lt (by omega)
  have hodd : p % 2 = 1 := by
    have h9 := Nat.mod_mod_of_dvd p (⟨N, by ring⟩ : (2 : ℕ) ∣ 2 * N)
    rw [hmod] at h9
    omega
  have h3 : 3 ≤ p := by
    have h4 : 2 ^ qbits + 1 ≤ p := hge
    omega
  refine ⟨is_prime_sound p hodd h3 hp, hmod, ?_⟩
  have h5 : 2 ^ (qbits - 1) ≤ 2 ^ qbits := Nat.pow_le_pow_right (by norm_num) (by omega)
  omega

/-- Claim C6 counterexample: with `N = 8 = 2^3` (a power of two) and
`q_bits = 3`, the selector's start value is `(8 / 16) * 16 + 1 = 1`, the
trial-division test accepts 1, and `_find_ntt_prime` returns 1 — which is
not prime and is smaller than `2^(q_bits−1) = 4`: the claim fails for
inputs with `2N > 2^q_bits`. -/
theorem claim_C6_counterexample :
    (8 : ℕ) = 2 ^ 3 ∧
    find_ntt_prime 1 (2 ^ 3) 8 = some 1 ∧
    ¬ Nat.Prime 1 ∧ ¬ (2 ^ (3 - 1) ≤ 1) :=
  ⟨by decide, by decide, Nat.not_prime_one, by decide⟩

/-- Claim C6 witness: at `N = 2`, `q_bits = 4` the selector finds
`q = 17`, which is prime, `≡ 1 (mod 4)` and `≥ 2^3`. -/
theorem claim_C6_witness :
    Nat.Prime 17 ∧ 17 % (2 * 2) = 1 ∧ 2 ^ (4 - 1) ≤ 17 :=
  claim_C6_amended 1 1 4 2 17 (by decide) (by decide) (by decide)

end BFVSchemeAccelerated
